import Mathlib

/-!
Verification development for the electrical equipment extractor
(extract_equipment_simple.py and server.py).

Modelling conventions:
* Python strings are lists of characters (List Char); the string
  operations the code uses (upper, substring containment, slicing,
  concatenation with join) are explicit recursive functions below.
* Python floats (word coordinates x0 and top) are modelled as
  rationals: the code only compares, subtracts, takes absolute values
  and sorts them.
* Python integers are Int; the Python percent operator with a positive
  modulus agrees with Int.emod, which is the percent operator on Int.
* The regex digit class is modelled over ASCII digits and the class
  A-Z over ASCII uppercase letters; all inputs of interest are ASCII.
* In-place mutation of the item dictionaries is rendered as functional
  record update; the aliasing fact this rendering relies on (the row
  partition produced by the clustering loop concatenates back to the
  sorted page list) is proved as lemma clusterRows_join.
* The rating/voltage summariser inside extract_properties_enhanced
  (source lines 94-121) only produces the free-text properties string
  and never influences control flow; the pipeline is parametric over
  it (argument summ), matching the spec treatment of the property
  parser as an opaque external collaborator.  The search-text
  selection in lines 84-92 is modelled exactly (selectSearchText).
-/

/-- The single-quote character, written by code point so that sources
stay plain. -/
def squote : Char := Char.ofNat 39

/-- ASCII uppercase letter test, the regex class A-Z. -/
def isUpperCh (c : Char) : Bool := 65 ≤ c.toNat && c.toNat ≤ 90

/-- ASCII digit test, the regex digit class. -/
def isDigitCh (c : Char) : Bool := 48 ≤ c.toNat && c.toNat ≤ 57

/-- The regex class of uppercase letters and digits. -/
def isUpperDigitCh (c : Char) : Bool := isUpperCh c || isDigitCh c

/-- One anchored attempt of the equipment regex (source line 131):
a quote, three uppercase letters, two uppercase-or-digit characters,
three digits, a closing quote.  All quantifiers in the pattern are
exact counts, so a single deterministic attempt per start position is
a faithful model of the regex engine.  The returned value is the
captured group: the eight characters between the quotes. -/
def matchQuotedAt : List Char → Option (List Char)
  | q1 :: c1 :: c2 :: c3 :: c4 :: c5 :: c6 :: c7 :: c8 :: q2 :: _ =>
    if q1 == squote && isUpperCh c1 && isUpperCh c2 && isUpperCh c3 &&
        isUpperDigitCh c4 && isUpperDigitCh c5 &&
        isDigitCh c6 && isDigitCh c7 && isDigitCh c8 && q2 == squote then
      some [c1, c2, c3, c4, c5, c6, c7, c8]
    else
      none
  | _ => none

/-- re.search with the equipment pattern: leftmost successful attempt. -/
def searchQuotedName : List Char → Option (List Char)
  | [] => none
  | c :: cs =>
    match matchQuotedAt (c :: cs) with
    | some nm => some nm
    | none => searchQuotedName cs

/-- Whether pat occurs at the head of the second list. -/
def startsWith : List Char → List Char → Bool
  | [], _ => true
  | _ :: _, [] => false
  | p :: ps, c :: cs => p == c && startsWith ps cs

/-- Python substring containment (the in operator on strings). -/
def containsSeq (pat : List Char) : List Char → Bool
  | [] => pat.isEmpty
  | c :: cs => startsWith pat (c :: cs) || containsSeq pat cs

/-- Index of the first occurrence of pat, as re.search with an escaped
literal pattern reports it via match.start(). -/
def findPos (pat : List Char) : List Char → Option Nat
  | [] => if pat.isEmpty then some 0 else none
  | c :: cs =>
    if startsWith pat (c :: cs) then some 0
    else (findPos pat cs).map (· + 1)

/-- Python str.upper restricted to the ASCII inputs of interest. -/
def upperChars (s : List Char) : List Char := s.map Char.toUpper

/-- Source lines 33-41: the fixed color palette. -/
def COLOR_SEQUENCE : List (List Char × List Char) :=
  [("Black".data, "333333".data),
   ("Red".data, "FFB3B3".data),
   ("Blue".data, "B3D9FF".data),
   ("Orange".data, "FFD9B3".data),
   ("Pink".data, "FFB3E6".data),
   ("Purple".data, "D9B3FF".data),
   ("Yellow".data, "FFFF99".data),
   ("Light Grey".data, "E6E6E6".data)]

/-- Source line 44: the service switchgear color. -/
def MVS_COLOR : List Char := "333333".data

/-- The hex code stored at palette index k.  Every index the program
computes lies in the range 0 to 7, so the getD default is never hit. -/
def paletteHex (k : Int) : List Char :=
  (COLOR_SEQUENCE.getD k.toNat ([], [])).2

/-- Source lines 49-78: position-based color selection for
distribution switchgear.  Python indexing into COLOR_SEQUENCE always
receives an in-range index here because the percent results lie in the
range 0 to 7. -/
def get_dsg_color_by_position (page_num row_num col_num total_cols : Int) : List Char :=
  if page_num = 0 ∧ row_num = 0 then
    if col_num = 0 then (COLOR_SEQUENCE.getD 0 ([], [])).2
    else (COLOR_SEQUENCE.getD (col_num % (COLOR_SEQUENCE.length : Int)).toNat ([], [])).2
  else if page_num = 1 ∧ row_num = 0 ∧ col_num = total_cols - 1 then
    (COLOR_SEQUENCE.getD 0 ([], [])).2
  else
    (COLOR_SEQUENCE.getD ((col_num + 1) % (COLOR_SEQUENCE.length : Int)).toNat ([], [])).2

theorem COLOR_SEQUENCE_length : (COLOR_SEQUENCE.length : Int) = 8 := rfl

/-- C1: with page index 0 and row index 0 the assigner gives column 0
the anchor palette entry (index 0) and any other column c the palette
entry at index c mod 8, so columns 1 to 7 get indices 1 to 7 and
column 8 wraps back to the anchor. -/
theorem c1_page0_row0_assignment (c t : Int) (h : c ≠ 0) :
    get_dsg_color_by_position 0 0 0 t = paletteHex 0 ∧
    get_dsg_color_by_position 0 0 c t = paletteHex (c % 8) := by
  constructor
  · rfl
  · unfold get_dsg_color_by_position
    rw [if_pos ⟨rfl, rfl⟩, if_neg h, COLOR_SEQUENCE_length]
    rfl

/-- C1 witness: at column 8 in a row of 9 columns the color wraps back
to the anchor palette entry. -/
theorem c1_witness : get_dsg_color_by_position 0 0 8 9 = paletteHex 0 := by
  have h := (c1_page0_row0_assignment 8 9 (by decide)).2
  rw [h]
  decide

/-- C2 counterexample: the call with page 2, row 1, column 7 in a row
of 8 columns is matched by neither special rule, yet it returns the
anchor entry (palette index 0), so the claim that the cyclic sequence
never returns index 0 is false. -/
theorem c2_counterexample :
    ¬((0 : Int) = 0 ∧ (1 : Int) = 0) ∧ ¬((0 : Int) = 1) ∧
    get_dsg_color_by_position 0 1 7 8 = paletteHex 0 := by
  refine ⟨by decide, by decide, ?_⟩
  decide

/-- C2 amended: every call matched by neither rule 1 nor rule 2
returns the palette entry at index (c + 1) mod 8; this sequence starts
at index 1 for column 0 but wraps through the anchor index 0 at every
column congruent to 7 mod 8, so the anchor is not skipped. -/
theorem c2_other_positions (p r c t : Int)
    (h1 : ¬(p = 0 ∧ r = 0)) (h2 : ¬(p = 1 ∧ r = 0 ∧ c = t - 1)) :
    get_dsg_color_by_position p r c t = paletteHex ((c + 1) % 8) := by
  unfold get_dsg_color_by_position
  rw [if_neg h1, if_neg h2, COLOR_SEQUENCE_length]
  rfl

/-- C2 amended witness: page 2 row 0 column 0 is matched by neither
rule and receives palette index 1. -/
theorem c2_witness : get_dsg_color_by_position 2 0 0 5 = paletteHex 1 := by
  have h := c2_other_positions 2 0 0 5 (by decide) (by decide)
  rw [h]
  decide

/-- C3: on page 1, row 0, the last column of a row of any length
receives the anchor palette entry (index 0). -/
theorem c3_page1_row0_last_column (t : Int) :
    get_dsg_color_by_position 1 0 (t - 1) t = paletteHex 0 := by
  unfold get_dsg_color_by_position
  rw [if_neg (by decide), if_pos ⟨rfl, rfl, rfl⟩]
  rfl

/-- A word reported by the external PDF extractor: its text and the
x0 and top coordinates used by the code. -/
structure Word where
  text : List Char
  x0 : Rat
  top : Rat
deriving DecidableEq

/-- A page reported by the external PDF extractor: the full page text
from extract_text and the word list from extract_words. -/
structure Page where
  fullText : List Char
  words : List Word
deriving DecidableEq

/-- One equipment record (the Python dict built at source lines
163-170, with the fields later stages add, empty until assigned).
Field typ renders the Python key Type, which is a Lean keyword. -/
structure Item where
  equipment : List Char
  typ : List Char
  properties : List Char
  x_position : Rat
  y_position : Rat
  page : Nat
  color : List Char
  colorName : List Char
  alternateFrom : List Char
  primaryFrom : List Char
deriving DecidableEq, Inhabited

/-- Positional lookup, the model of Python list indexing and of
slicing bounds checks. -/
def nth : List α → Nat → Option α
  | [], _ => none
  | a :: _, 0 => some a
  | _ :: l, n + 1 => nth l n

theorem nth_drop (l : List α) (a j : Nat) : nth (l.drop a) j = nth l (a + j) := by
  induction a generalizing l with
  | zero => simp [nth]
  | succ a ih =>
    cases l with
    | nil => simp [nth]
    | cons c cs =>
      rw [List.drop_succ_cons, ih cs]
      have h : a + 1 + j = (a + j) + 1 := by omega
      rw [h]
      rfl

theorem nth_take (l : List α) (m j : Nat) :
    nth (l.take m) j = if j < m then nth l j else none := by
  induction l generalizing m j with
  | nil => simp [nth]
  | cons c cs ih =>
    cases m with
    | zero => simp [nth]
    | succ m =>
      cases j with
      | zero => simp [nth]
      | succ j => simpa [nth, Nat.succ_lt_succ_iff] using ih m j

/-- Source lines 158-160: the word slice from max(0, i - 10) to
min(len(words), i + 40) around the matching word at index i.
Python words[a : b] is drop a of take b. -/
def contextWords (words : List Word) (i : Nat) : List Word :=
  (words.take (min words.length (i + 40))).drop (i - 10)

/-- Source line 160: the context text is the space-joined word texts
of the window. -/
def contextText (words : List Word) (i : Nat) : List Char :=
  List.intercalate [' '] ((contextWords words i).map Word.text)

/-- The window the claim describes: ten words before the match, the
matching word, and forty words after it, clipped to the list bounds
(indices i - 10 up to and including i + 40). -/
def claimedContextWindow (words : List Word) (i : Nat) : List Word :=
  (words.take (min words.length (i + 41))).drop (i - 10)

/-- Source line 86: the value-unit indicator test on the uppercased
context text. -/
def hasValueIndicators (context_text : List Char) : Bool :=
  ["KVA", "KV", "A", "AMP"].any (fun p => containsSeq p.data (upperChars context_text))

/-- Source lines 84-92: choose the text that property extraction will
search.  If the immediate context lacks the value-unit indicators the
code looks for the first occurrence of the bare name in the full page
text and, when found, takes the window of 300 characters on each side
of it; otherwise the immediate context is kept. -/
def selectSearchText (equipment_name context_text all_page_text : List Char) : List Char :=
  if hasValueIndicators context_text then context_text
  else
    match findPos equipment_name all_page_text with
    | none => context_text
    | some k =>
      (all_page_text.take (min all_page_text.length (k + equipment_name.length + 300))).drop (k - 300)

/-- A filler word for the C8 counterexample input. -/
def fillerWord : Word := ⟨['w'], 0, 0⟩

/-- A word whose text is the quoted name DSGAH110, so that the word at
the probed index really is a matched equipment word. -/
def dsgWord : Word := ⟨squote :: ("DSGAH110".data ++ [squote]), 0, 0⟩

/-- A 51-word page word list with the matched word at index 10. -/
def cexWords : List Word :=
  List.replicate 10 fillerWord ++ dsgWord :: List.replicate 40 fillerWord

/-- C8 counterexample: for the matched word at index 10 of a 51-word
list, the window the code takes (indices 0 to 49, fifty words) differs
from the claimed window of ten words before plus forty words after the
match (indices 0 to 50, fifty-one words): the slice bound i + 40 is
exclusive, so only 39 words after the match are included. -/
theorem c8_counterexample :
    matchQuotedAt dsgWord.text =
      some ("DSGAH110".data) ∧
    contextWords cexWords 10 ≠ claimedContextWindow cexWords 10 := by
  constructor
  · decide
  · decide

/-- C8 amended: the context window is the slice of word indices from
max(0, i - 10) up to but excluding min(length, i + 40) — up to ten
words before and up to thirty-nine words after the matching word — and
the 300-character window around the first full-text occurrence of the
name replaces the immediate window exactly when the immediate window
lacks the value-unit indicators and the name occurs in the page
text. -/
theorem c8_context_window_and_fallback (words : List Word) (i j : Nat)
    (nm ctx full : List Char) :
    (nth (contextWords words i) j =
      if i - 10 + j < min words.length (i + 40) then nth words (i - 10 + j) else none) ∧
    (hasValueIndicators ctx = false → ∀ k, findPos nm full = some k →
      selectSearchText nm ctx full =
        (full.take (min full.length (k + nm.length + 300))).drop (k - 300)) ∧
    (hasValueIndicators ctx = true → selectSearchText nm ctx full = ctx) ∧
    (findPos nm full = none → selectSearchText nm ctx full = ctx) := by
  refine ⟨?_, ?_, ?_, ?_⟩
  · rw [contextWords, nth_drop, nth_take]
  · intro hind k hk
    rw [selectSearchText, if_neg (by simp [hind]), hk]
  · intro hind
    rw [selectSearchText, if_pos hind]
  · intro hnone
    rw [selectSearchText, hnone]
    split <;> rfl

/-- C8 amended witness: a concrete run of the window characterisation
and of the fallback branch.  The context XYZ lacks every indicator,
the name AB occurs in the page text ZZABZZ at index 2, and the
selected search text is the 300-character window around it, here the
whole page text. -/
theorem c8_witness :
    nth (contextWords cexWords 10) 49 = some fillerWord ∧
    hasValueIndicators ("XYZ".data) = false ∧
    findPos ("AB".data) ("ZZABZZ".data) = some 2 ∧
    selectSearchText ("AB".data) ("XYZ".data) ("ZZABZZ".data) =
      (("ZZABZZ".data).take (min ("ZZABZZ".data).length (2 + ("AB".data).length + 300))).drop
        (2 - 300) := by
  refine ⟨?_, by decide, by decide, ?_⟩
  · have h := (c8_context_window_and_fallback cexWords 10 49 [] [] []).1
    rw [h]
    decide
  · exact (c8_context_window_and_fallback cexWords 10 49 ("AB".data) ("XYZ".data)
      ("ZZABZZ".data)).2.1 (by decide) 2 (by decide)

/-- Python abs on the rational model of the coordinates. -/
def rabs (q : Rat) : Rat := if q < 0 then -q else q

/-- Source line 180: the row tolerance in position units. -/
def y_threshold : Rat := 50

/-- Source lines 182-189: one step of the row-grouping loop.  State is
the closed rows, the current row, and the y of the last item added. -/
def clusterStep (st : List (List Item) × List Item × Option Rat) (eq : Item) :
    List (List Item) × List Item × Option Rat :=
  match st with
  | (rows, cur, lastY) =>
    match lastY with
    | none => (rows, cur ++ [eq], some eq.y_position)
    | some ly =>
      if rabs (eq.y_position - ly) < y_threshold then
        (rows, cur ++ [eq], some eq.y_position)
      else
        ((if cur = [] then rows else rows ++ [cur]), [eq], some eq.y_position)

/-- Source lines 177-192: group the sorted page items into rows,
closing the final row if it is nonempty. -/
def clusterRows (items : List Item) : List (List Item) :=
  match items.foldl clusterStep ([], [], none) with
  | (rows, cur, _) => if cur = [] then rows else rows ++ [cur]

/-- Closing the state after folding the remaining items: as long as
every remaining item is within threshold of its predecessor, the fold
only extends the current row. -/
theorem clusterRows_chain_fold (l : List Item) (rows : List (List Item))
    (cur : List Item) (p : Item)
    (hch : List.Chain (fun a b => rabs (b.y_position - a.y_position) < y_threshold) p l) :
    l.foldl clusterStep (rows, cur, some p.y_position) =
      (rows, cur ++ l, some (l.getLastD p).y_position) := by
  induction l generalizing cur p with
  | nil => simp
  | cons b l ih =>
    cases hch with
    | cons hb hch =>
      rw [List.foldl_cons]
      show List.foldl clusterStep (clusterStep (rows, cur, some p.y_position) b) l = _
      rw [show clusterStep (rows, cur, some p.y_position) b =
            (rows, cur ++ [b], some b.y_position) by
          simp [clusterStep, hb]]
      rw [ih (cur ++ [b]) b hch, List.getLastD_cons]
      simp

/-- A Boolean rendering of: the list is sorted by y then x, matching
the Python sort key at source line 173. -/
def sortedYXb : List Item → Bool
  | [] => true
  | [_] => true
  | a :: b :: l =>
    (decide (a.y_position < b.y_position ∨
      (a.y_position = b.y_position ∧ a.x_position ≤ b.x_position))) && sortedYXb (b :: l)

/-- A Boolean rendering of: every consecutive pair of items has
y-positions differing by less than the threshold. -/
def closeChainB : List Item → Bool
  | [] => true
  | [_] => true
  | a :: b :: l => (decide (rabs (b.y_position - a.y_position) < y_threshold)) && closeChainB (b :: l)

theorem closeChainB_chain (a : Item) (l : List Item)
    (h : closeChainB (a :: l) = true) :
    List.Chain (fun x y => rabs (y.y_position - x.y_position) < y_threshold) a l := by
  induction l generalizing a with
  | nil => exact List.Chain.nil
  | cons b l ih =>
    rw [closeChainB, Bool.and_eq_true, decide_eq_true_eq] at h
    exact List.Chain.cons h.1 (ih b h.2)

/-- C4: a nonempty item list sorted by y then x in which every
consecutive pair of y-positions differs by less than the threshold is
grouped into exactly one row containing all the items — membership is
judged against the previous item, so the first and last items may
differ by 50 or more. -/
theorem c4_drifting_single_row (items : List Item) (hne : items ≠ [])
    (hsorted : sortedYXb items = true) (hclose : closeChainB items = true) :
    clusterRows items = [items] := by
  cases items with
  | nil => exact absurd rfl hne
  | cons a l =>
    have hch := closeChainB_chain a l hclose
    rw [clusterRows, List.foldl_cons]
    show (match List.foldl clusterStep (clusterStep ([], [], none) a) l with
      | (rows, cur, _) => if cur = [] then rows else rows ++ [cur]) = [a :: l]
    rw [show clusterStep ([], [], none) a = ([], [a], some a.y_position) from rfl]
    rw [clusterRows_chain_fold l [] [a] a hch]
    simp

/-- C4 witness: three items whose consecutive y-deltas are 40 and 40,
below the threshold, while the first and last y-positions differ by
80, at or above the threshold; they land in a single row. -/
def driftItem (y : Rat) : Item := ⟨"X".data, "DSG".data, [], 0, y, 0, [], [], [], []⟩

unseal Rat.sub in
theorem c4_witness :
    rabs ((driftItem 80).y_position - (driftItem 0).y_position) ≥ y_threshold ∧
    clusterRows [driftItem 0, driftItem 40, driftItem 80] =
      [[driftItem 0, driftItem 40, driftItem 80]] := by
  refine ⟨by decide, ?_⟩
  exact c4_drifting_single_row [driftItem 0, driftItem 40, driftItem 80]
    (by decide) (by decide) (by decide)

/-- Stable insertion used to model the Python list sort: the new
element goes after every element the key judges less-or-equal, so
items with equal keys keep their original relative order.  A stable
sort is uniquely determined by its key, hence this agrees with the
Python sort. -/
def insLe (le : α → α → Bool) (a : α) : List α → List α
  | [] => [a]
  | b :: bs => if le b a then b :: insLe le a bs else a :: b :: bs

/-- Stable sort by the Boolean total preorder le. -/
def stableSortBy (le : α → α → Bool) (l : List α) : List α :=
  l.foldl (fun acc a => insLe le a acc) []

theorem insLe_perm (le : α → α → Bool) (a : α) (l : List α) :
    List.Perm (insLe le a l) (a :: l) := by
  induction l with
  | nil => exact List.Perm.refl _
  | cons b bs ih =>
    rw [insLe]
    split
    · exact List.Perm.trans (List.Perm.cons b ih) (List.Perm.swap a b bs)
    · exact List.Perm.refl _

theorem stableSortBy_fold_perm (le : α → α → Bool) (l acc : List α) :
    List.Perm (l.foldl (fun acc a => insLe le a acc) acc) (acc ++ l) := by
  induction l generalizing acc with
  | nil => simp
  | cons a l ih =>
    rw [List.foldl_cons]
    refine List.Perm.trans (ih (insLe le a acc)) ?_
    refine List.Perm.trans (List.Perm.append_right l (insLe_perm le a acc)) ?_
    exact (List.perm_middle).symm

theorem stableSortBy_perm (le : α → α → Bool) (l : List α) :
    List.Perm (stableSortBy le l) l := by
  simpa using stableSortBy_fold_perm le l []

/-- The Python sort key of source line 173: y-position then
x-position, rendered as the less-or-equal test of the lexicographic
order on the key tuple. -/
def leYX (a b : Item) : Bool :=
  decide (a.y_position < b.y_position ∨
    (a.y_position = b.y_position ∧ a.x_position ≤ b.x_position))

/-- The sort key of source lines 215 and 247: page, then y-position,
then x-position. -/
def lePYX (a b : Item) : Bool :=
  decide (a.page < b.page ∨
    (a.page = b.page ∧ (a.y_position < b.y_position ∨
      (a.y_position = b.y_position ∧ a.x_position ≤ b.x_position))))

/-- Closing the clustering state: append the current row if nonempty
(source lines 191-192). -/
def closeState (st : List (List Item) × List Item × Option Rat) : List (List Item) :=
  match st with
  | (rows, cur, _) => if cur = [] then rows else rows ++ [cur]

theorem clusterRows_eq_closeState (items : List Item) :
    clusterRows items = closeState (items.foldl clusterStep ([], [], none)) := by
  rw [clusterRows, closeState]

theorem closeState_join (rows : List (List Item)) (cur : List Item) (ly : Option Rat) :
    (closeState (rows, cur, ly)).flatten = rows.flatten ++ cur := by
  rw [closeState]
  split
  · simp_all
  · simp

theorem clusterStep_fold_join (l : List Item) (rows : List (List Item))
    (cur : List Item) (ly : Option Rat) :
    (closeState (l.foldl clusterStep (rows, cur, ly))).flatten = rows.flatten ++ cur ++ l := by
  induction l generalizing rows cur ly with
  | nil => simp [closeState_join]
  | cons a l ih =>
    rw [List.foldl_cons]
    cases ly with
    | none =>
      rw [show clusterStep (rows, cur, none) a = (rows, cur ++ [a], some a.y_position) from rfl]
      rw [ih]
      simp
    | some y =>
      by_cases hcl : rabs (a.y_position - y) < y_threshold
      · rw [show clusterStep (rows, cur, some y) a = (rows, cur ++ [a], some a.y_position) by
          simp [clusterStep, hcl]]
        rw [ih]
        simp
      · rw [show clusterStep (rows, cur, some y) a =
            ((if cur = [] then rows else rows ++ [cur]), [a], some a.y_position) by
          simp [clusterStep, hcl]]
        rw [ih]
        split
        · simp_all
        · simp

/-- The rows produced by the clustering pass concatenate back to the
input list: the clustering only partitions consecutive runs.  This is
the aliasing fact that lets in-place color stamping through the rows
be rendered as re-joining the stamped rows. -/
theorem clusterRows_join (items : List Item) : (clusterRows items).flatten = items := by
  rw [clusterRows_eq_closeState]
  simpa using clusterStep_fold_join items [] [] none

/-- Source lines 198-201: stamp one item of a service row. -/
def stampMVS (it : Item) : Item :=
  { it with color := MVS_COLOR, colorName := "Black".data }

/-- Source line 206: recover the color name from the hex code, with
the Unknown fallback of the next(...) default. -/
def colorNameOf (hex : List Char) : List Char :=
  match COLOR_SEQUENCE.find? (fun p => p.2 == hex) with
  | some p => p.1
  | none => "Unknown".data

/-- Source lines 204-208: stamp the distribution item at column c of
a row of the given length, on page pg at page-row index rowIdx.  The
assigner receives rowIdx - 1 computed in Int, exactly as the Python
call passes row_idx - 1. -/
def stampDSG (pg rowIdx total c : Nat) (it : Item) : Item :=
  let hex := get_dsg_color_by_position (pg : Int) ((rowIdx : Int) - 1) (c : Int) (total : Int)
  { it with color := hex, colorName := colorNameOf hex }

/-- Enumerate-and-map, the model of the Python enumerate loops. -/
def mapWithIdx (f : Nat → α → β) : Nat → List α → List β
  | _, [] => []
  | n, a :: l => f n a :: mapWithIdx f (n + 1) l

theorem nth_mapWithIdx (f : Nat → α → β) (n c : Nat) (l : List α) :
    nth (mapWithIdx f n l) c = (nth l c).map (f (n + c)) := by
  induction l generalizing n c with
  | nil => simp [mapWithIdx, nth]
  | cons a l ih =>
    cases c with
    | zero => simp [mapWithIdx, nth]
    | succ c =>
      rw [mapWithIdx, nth, nth, ih]
      have h : n + 1 + c = n + (c + 1) := by omega
      rw [h]

/-- Source lines 195-209: assign colors to one row.  A row whose
first item is of type MVS is stamped with the service color, any
other row through the position assigner.  The rows the clustering
pass produces are nonempty, so row[0] is modelled by headD. -/
def assignRow (pg rowIdx : Nat) (row : List Item) : List Item :=
  if (row.headD default).typ = "MVS".data then row.map stampMVS
  else mapWithIdx (fun c it => stampDSG pg rowIdx row.length c it) 0 row

/-- Source lines 195-209: the color stage over the enumerated rows of
one page. -/
def assignColors (pg : Nat) (rows : List (List Item)) : List (List Item) :=
  mapWithIdx (fun rowIdx row => assignRow pg rowIdx row) 0 rows

/-- C10: when the first row of a page is distribution-led (its first
item has type DSG), the color stage passes row index 0 - 1 = -1 to
the assigner, which matches neither positional special rule, so every
column c of that first row receives palette index (c + 1) mod 8,
column 0 on page 0 included. -/
theorem c10_first_row_dsg_row_index (pg : Nat) (rows : List (List Item))
    (r0 : List Item) (c : Nat) (it : Item)
    (h0 : nth rows 0 = some r0) (hty : (r0.headD default).typ = "DSG".data)
    (hc : nth r0 c = some it) :
    ∃ out it2, nth (assignColors pg rows) 0 = some out ∧ nth out c = some it2 ∧
      it2.color = paletteHex (((c : Int) + 1) % 8) ∧
      it2.equipment = it.equipment ∧ it2.typ = it.typ := by
  cases rows with
  | nil => exact absurd h0 (by simp [nth])
  | cons row rest =>
    have hr : row = r0 := by simpa [nth] using h0
    subst hr
    refine ⟨assignRow pg 0 row, stampDSG pg 0 row.length c it, ?_, ?_, ?_, ?_, ?_⟩
    · rfl
    · rw [assignRow, if_neg (by rw [hty]; decide), nth_mapWithIdx, hc]
      simp
    · show get_dsg_color_by_position (pg : Int) ((0 : Int) - 1) (c : Int) (row.length : Int) =
        paletteHex (((c : Int) + 1) % 8)
      unfold get_dsg_color_by_position
      rw [if_neg (fun h => by simpa using h.2), if_neg (fun h => by simpa using h.2.1),
        COLOR_SEQUENCE_length]
      rfl
    · rfl
    · rfl

/-- C10 witness: a page whose only row is two distribution items gets
palette index 1 at column 0 and palette index 2 at column 1, on page
0 where rule 1 would otherwise have given column 0 the anchor. -/
theorem c10_witness :
    ∃ out it2, nth (assignColors 0 [[driftItem 0, driftItem 1]]) 0 = some out ∧
      nth out 0 = some it2 ∧
      it2.color = paletteHex (((0 : Nat) + 1) % 8) ∧
      it2.equipment = (driftItem 0).equipment ∧ it2.typ = (driftItem 0).typ :=
  c10_first_row_dsg_row_index 0 [[driftItem 0, driftItem 1]] [driftItem 0, driftItem 1] 0
    (driftItem 0) (by decide) (by decide) (by decide)

theorem nth_map (f : α → β) (l : List α) (n : Nat) :
    nth (l.map f) n = (nth l n).map f := by
  induction l generalizing n with
  | nil => simp [nth]
  | cons a l ih =>
    cases n with
    | zero => simp [nth]
    | succ n => simpa [nth] using ih n

/-- Source lines 142-151 condensed into the per-word question: the
name the word yields, if its text matches the pattern and the
three-letter prefix is a recognised equipment type. -/
def wordName (w : Word) : Option (List Char) :=
  match searchQuotedName w.text with
  | none => none
  | some nm =>
    if nm.take 3 = "MVS".data ∨ nm.take 3 = "DSG".data then some nm else none

/-- The names a page yields before deduplication, in word-scan order. -/
def pageNames (p : Page) : List (List Char) := p.words.filterMap wordName

/-- The names the whole document yields before deduplication, in page
order then word-scan order. -/
def matchedNames (pgs : List Page) : List (List Char) := (pgs.map pageNames).flatten

/-- Source lines 157-170: build one equipment record from the word at
index i of the page word list.  The connection fields start empty, as
the loop at lines 218-220 leaves them. -/
def mkItem (summ : List Char → List Char) (pg : Nat) (full : List Char)
    (allWords : List Word) (i : Nat) (w : Word) (nm : List Char) : Item :=
  { equipment := nm
    typ := nm.take 3
    properties := summ (selectSearchText nm (contextText allWords i) full)
    x_position := w.x0
    y_position := w.top
    page := pg
    color := []
    colorName := []
    alternateFrom := []
    primaryFrom := [] }

/-- Source lines 142-170: the per-page word scan.  The global
seen-equipment set is a list queried only through membership, and i
tracks the enumerate index into the full word list. -/
def scanWords (summ : List Char → List Char) (pg : Nat) (full : List Char)
    (allWords : List Word) : Nat → List Word → List (List Char) →
    List (List Char) × List Item
  | _, [], seen => (seen, [])
  | i, w :: rest, seen =>
    match searchQuotedName w.text with
    | none => scanWords summ pg full allWords (i + 1) rest seen
    | some nm =>
      if nm.take 3 = "MVS".data ∨ nm.take 3 = "DSG".data then
        if nm ∈ seen then scanWords summ pg full allWords (i + 1) rest seen
        else
          ((scanWords summ pg full allWords (i + 1) rest (nm :: seen)).1,
            mkItem summ pg full allWords i w nm ::
              (scanWords summ pg full allWords (i + 1) rest (nm :: seen)).2)
      else scanWords summ pg full allWords (i + 1) rest seen

/-- Scan one page from its first word. -/
def scanPage (summ : List Char → List Char) (pg : Nat) (p : Page)
    (seen : List (List Char)) : List (List Char) × List Item :=
  scanWords summ pg p.fullText p.words 0 p.words seen

/-- Source lines 134-212: scan a page, sort its items by y then x,
group them into rows, stamp colors row by row, and hand back the
stamped page list together with the updated seen set.  The in-place
stamping through the row partition is rendered by re-joining the
stamped rows; clusterRows_join shows the partition concatenates back
to the sorted list. -/
def processPage (summ : List Char → List Char) (pg : Nat) (p : Page)
    (seen : List (List Char)) : List (List Char) × List Item :=
  ((scanPage summ pg p seen).1,
    (assignColors pg (clusterRows (stableSortBy leYX (scanPage summ pg p seen).2))).flatten)

/-- The page loop of source lines 134-212, threading the seen set and
extending the accumulated list page by page. -/
def runPages (summ : List Char → List Char) : Nat → List Page → List (List Char) → List Item
  | _, [], _ => []
  | pg, p :: rest, seen =>
    (processPage summ pg p seen).2 ++ runPages summ (pg + 1) rest (processPage summ pg p seen).1

/-- Source lines 124-222, success path: all pages scanned and the
final list sorted by page, then y, then x (line 215).  The loop at
lines 218-220 sets the connection fields to the empty string; every
record already carries them empty. -/
def runPipeline (summ : List Char → List Char) (pgs : List Page) : List Item :=
  stableSortBy lePYX (runPages summ 0 pgs [])

/-- The external extractor with its fault points: the page sequence
with a possible failure at any position.  Gathering stops at the
first failure, which models an exception thrown while opening the
document or while extracting any page. -/
def collectPages : List (Except Unit Page) → Option (List Page)
  | [] => some []
  | Except.error _ :: _ => none
  | Except.ok p :: rest => (collectPages rest).map (p :: ·)

/-- Source lines 124-228: the whole extraction.  The except branch at
lines 224-228 turns any failure of the external extractor into the
none result, discarding everything accumulated so far. -/
def extract_with_positions_pdfplumber (summ : List Char → List Char)
    (epgs : List (Except Unit Page)) : Option (List Item) :=
  (collectPages epgs).map (runPipeline summ)

/-- Source lines 266-277: the caller keeps the data only when it is
present and nonempty and returns none otherwise, so a failed
extraction is indistinguishable from zero equipment found. -/
def extract_from_pdf (summ : List Char → List Char)
    (epgs : List (Except Unit Page)) : Option (List Item) :=
  match extract_with_positions_pdfplumber summ epgs with
  | some data => if 0 < data.length then some data else none
  | none => none

theorem collectPages_error (epgs : List (Except Unit Page))
    (herr : Except.error () ∈ epgs) : collectPages epgs = none := by
  induction epgs with
  | nil => cases herr
  | cons e rest ih =>
    cases e with
    | error u => rfl
    | ok p =>
      have hr : Except.error () ∈ rest := by
        rcases List.mem_cons.mp herr with h | h
        · cases h
        · exact h
      rw [collectPages, ih hr]
      rfl

/-- C7: if the external extractor fails at any point, the extraction
returns the no-data sentinel none — never a partial list — and the
caller extract_from_pdf also returns none, exactly as for zero
equipment found. -/
theorem c7_extractor_error_yields_none (summ : List Char → List Char)
    (epgs : List (Except Unit Page)) (herr : Except.error () ∈ epgs) :
    extract_with_positions_pdfplumber summ epgs = none ∧
    extract_from_pdf summ epgs = none := by
  have hc := collectPages_error epgs herr
  constructor
  · rw [extract_with_positions_pdfplumber, hc]
    rfl
  · rw [extract_from_pdf, extract_with_positions_pdfplumber, hc]
    rfl

/-- C7 witness: a document whose extraction fails immediately. -/
theorem c7_witness :
    extract_with_positions_pdfplumber (fun _ => []) [Except.error ()] = none ∧
    extract_from_pdf (fun _ => []) [Except.error ()] = none :=
  c7_extractor_error_yields_none (fun _ => []) [Except.error ()] (List.mem_singleton.mpr rfl)

/-- First-occurrence filter relative to an already-seen set: the
specification reading of the seen-set deduplication. -/
def keepFirstAux (seen : List (List Char)) : List (List Char) → List (List Char)
  | [] => []
  | a :: l => if a ∈ seen then keepFirstAux seen l else a :: keepFirstAux (a :: seen) l

/-- Keep the first occurrence of every name. -/
def keepFirst (l : List (List Char)) : List (List Char) := keepFirstAux [] l

/-- The seen set after consuming a name stream. -/
def seenAfter (seen : List (List Char)) (names : List (List Char)) : List (List Char) :=
  names.foldl (fun s n => if n ∈ s then s else n :: s) seen

theorem seenAfter_cons (seen : List (List Char)) (a : List Char) (l : List (List Char)) :
    seenAfter seen (a :: l) = seenAfter (if a ∈ seen then seen else a :: seen) l := rfl

theorem keepFirstAux_append (seen xs ys : List (List Char)) :
    keepFirstAux seen (xs ++ ys) =
      keepFirstAux seen xs ++ keepFirstAux (seenAfter seen xs) ys := by
  induction xs generalizing seen with
  | nil => simp [keepFirstAux, seenAfter]
  | cons a xs ih =>
    by_cases h : a ∈ seen
    · simp [keepFirstAux, h, ih, seenAfter_cons]
    · simp [keepFirstAux, h, ih, seenAfter_cons]

theorem keepFirstAux_nodup (l seen : List (List Char)) :
    (keepFirstAux seen l).Nodup ∧ ∀ a ∈ keepFirstAux seen l, a ∉ seen := by
  induction l generalizing seen with
  | nil => simp [keepFirstAux]
  | cons a l ih =>
    by_cases h : a ∈ seen
    · simpa [keepFirstAux, h] using ih seen
    · obtain ⟨hn, hm⟩ := ih (a :: seen)
      rw [keepFirstAux, if_neg h]
      refine ⟨List.nodup_cons.mpr ⟨fun hmem => ?_, hn⟩, ?_⟩
      · exact hm a hmem (List.mem_cons_self a seen)
      · intro b hb hbs
        rcases List.mem_cons.mp hb with rfl | hb2
        · exact h hbs
        · exact hm b hb2 (List.mem_cons_of_mem a hbs)

theorem keepFirstAux_subset (l seen : List (List Char)) :
    ∀ a ∈ keepFirstAux seen l, a ∈ l := by
  induction l generalizing seen with
  | nil => simp [keepFirstAux]
  | cons c l ih =>
    intro a ha
    by_cases h : c ∈ seen
    · rw [keepFirstAux, if_pos h] at ha
      exact List.mem_cons_of_mem c (ih seen a ha)
    · rw [keepFirstAux, if_neg h] at ha
      rcases List.mem_cons.mp ha with rfl | ha2
      · exact List.mem_cons_self a l
      · exact List.mem_cons_of_mem c (ih (c :: seen) a ha2)

/-- The word scan realises the first-occurrence filter: its emitted
names are exactly the first occurrences of the matched recognised
names relative to the incoming seen set, and the outgoing seen set is
the incoming one extended by them. -/
theorem scanWords_spec (summ : List Char → List Char) (pg : Nat) (full : List Char)
    (allWords : List Word) (ws : List Word) (i : Nat) (seen : List (List Char)) :
    (scanWords summ pg full allWords i ws seen).1 =
      seenAfter seen (ws.filterMap wordName) ∧
    (scanWords summ pg full allWords i ws seen).2.map Item.equipment =
      keepFirstAux seen (ws.filterMap wordName) := by
  induction ws generalizing i seen with
  | nil => simp [scanWords, seenAfter, keepFirstAux]
  | cons w rest ih =>
    cases hsq : searchQuotedName w.text with
    | none =>
      have hw : wordName w = none := by rw [wordName, hsq]
      simpa [scanWords, hsq, List.filterMap_cons, hw] using ih (i + 1) seen
    | some nm =>
      by_cases hty : nm.take 3 = "MVS".data ∨ nm.take 3 = "DSG".data
      · have hw : wordName w = some nm := by
          unfold wordName
          rw [hsq]
          exact if_pos hty
        by_cases hseen : nm ∈ seen
        · simpa [scanWords, hsq, hty, hseen, List.filterMap_cons, hw, keepFirstAux,
            seenAfter_cons] using ih (i + 1) seen
        · have := ih (i + 1) (nm :: seen)
          simp only [scanWords, hsq, if_pos hty, if_neg hseen, List.filterMap_cons, hw,
            keepFirstAux, seenAfter_cons, if_neg hseen, List.map_cons, mkItem]
          exact ⟨this.1, by rw [this.2]⟩
      · have hw : wordName w = none := by
          unfold wordName
          rw [hsq]
          exact if_neg hty
        simpa [scanWords, hsq, hty, List.filterMap_cons, hw] using ih (i + 1) seen

theorem map_equipment_stampMVS (row : List Item) :
    (row.map stampMVS).map Item.equipment = row.map Item.equipment := by
  induction row with
  | nil => rfl
  | cons a l ih => simp_all [stampMVS]

theorem map_equipment_stampDSG (pg rowIdx total n : Nat) (row : List Item) :
    (mapWithIdx (fun c it => stampDSG pg rowIdx total c it) n row).map Item.equipment =
      row.map Item.equipment := by
  induction row generalizing n with
  | nil => rfl
  | cons a l ih => simp_all [mapWithIdx, stampDSG]

theorem assignRow_names (pg rowIdx : Nat) (row : List Item) :
    (assignRow pg rowIdx row).map Item.equipment = row.map Item.equipment := by
  rw [assignRow]
  split
  · exact map_equipment_stampMVS row
  · exact map_equipment_stampDSG pg rowIdx row.length 0 row

theorem assignColors_names_aux (pg n : Nat) (rows : List (List Item)) :
    ((mapWithIdx (fun rowIdx row => assignRow pg rowIdx row) n rows).flatten).map
        Item.equipment = (rows.flatten).map Item.equipment := by
  induction rows generalizing n with
  | nil => rfl
  | cons r rs ih =>
    simp only [mapWithIdx, List.flatten_cons, List.map_append, assignRow_names, ih]

theorem assignColors_names (pg : Nat) (rows : List (List Item)) :
    ((assignColors pg rows).flatten).map Item.equipment = (rows.flatten).map Item.equipment :=
  assignColors_names_aux pg 0 rows

/-- One page of the pipeline: names are a permutation of the first
occurrences of the recognised page names, and the seen set advances
accordingly. -/
theorem processPage_spec (summ : List Char → List Char) (pg : Nat) (p : Page)
    (seen : List (List Char)) :
    (processPage summ pg p seen).1 = seenAfter seen (pageNames p) ∧
    List.Perm ((processPage summ pg p seen).2.map Item.equipment)
      (keepFirstAux seen (pageNames p)) := by
  obtain ⟨h1, h2⟩ := scanWords_spec summ pg p.fullText p.words p.words 0 seen
  have h2x : (scanPage summ pg p seen).2.map Item.equipment =
      keepFirstAux seen (pageNames p) := h2
  constructor
  · exact h1
  · show List.Perm (((assignColors pg (clusterRows
        (stableSortBy leYX (scanPage summ pg p seen).2))).flatten).map Item.equipment)
      (keepFirstAux seen (pageNames p))
    rw [assignColors_names, clusterRows_join, ← h2x]
    exact List.Perm.map Item.equipment (stableSortBy_perm leYX (scanPage summ pg p seen).2)

theorem runPages_names (summ : List Char → List Char) (pgs : List Page) (pg : Nat)
    (seen : List (List Char)) :
    List.Perm ((runPages summ pg pgs seen).map Item.equipment)
      (keepFirstAux seen ((pgs.map pageNames).flatten)) := by
  induction pgs generalizing pg seen with
  | nil => simp [runPages, keepFirstAux]
  | cons p rest ih =>
    rw [runPages, List.map_append, List.map_cons, List.flatten_cons, keepFirstAux_append]
    obtain ⟨h1, h2⟩ := processPage_spec summ pg p seen
    refine List.Perm.append h2 ?_
    rw [h1]
    exact ih (pg + 1) (seenAfter seen (pageNames p))

/-- C6: no two items in the extractor output share a name — the
output names are a permutation of the first occurrences, in page
order then word-scan order, of the matched recognised names, and
every later word matching an already-seen name contributes nothing. -/
theorem c6_unique_names (summ : List Char → List Char) (pgs : List Page) :
    List.Perm ((runPipeline summ pgs).map Item.equipment) (keepFirst (matchedNames pgs)) ∧
    ((runPipeline summ pgs).map Item.equipment).Nodup := by
  have hperm : List.Perm ((runPipeline summ pgs).map Item.equipment)
      (keepFirst (matchedNames pgs)) := by
    refine List.Perm.trans
      (List.Perm.map Item.equipment (stableSortBy_perm lePYX (runPages summ 0 pgs []))) ?_
    exact runPages_names summ pgs 0 []
  refine ⟨hperm, ?_⟩
  exact (List.Perm.nodup_iff hperm).mpr (keepFirstAux_nodup (matchedNames pgs) []).1

theorem matchQuotedAt_shape (s nm : List Char) (h : matchQuotedAt s = some nm) :
    startsWith (squote :: (nm ++ [squote])) s = true := by
  unfold matchQuotedAt at h
  split at h
  · rename_i q1 c1 c2 c3 c4 c5 c6 c7 c8 q2 rest
    split at h
    · rename_i hcond
      have hnm : [c1, c2, c3, c4, c5, c6, c7, c8] = nm := Option.some.inj h
      subst hnm
      simp only [Bool.and_eq_true, beq_iff_eq] at hcond
      obtain ⟨⟨⟨⟨⟨⟨⟨⟨⟨hq1, -⟩, -⟩, -⟩, -⟩, -⟩, -⟩, -⟩, -⟩, hq2⟩ := hcond
      subst hq1
      subst hq2
      simp [startsWith]
    · exact Option.noConfusion h
  · exact Option.noConfusion h

theorem searchQuotedName_quoted (s nm : List Char) (h : searchQuotedName s = some nm) :
    containsSeq (squote :: (nm ++ [squote])) s = true := by
  induction s with
  | nil => exact Option.noConfusion h
  | cons c cs ih =>
    rw [containsSeq]
    cases hm : matchQuotedAt (c :: cs) with
    | some nm2 =>
      simp only [searchQuotedName, hm] at h
      have hnm : nm2 = nm := Option.some.inj h
      subst hnm
      rw [matchQuotedAt_shape (c :: cs) nm2 hm]
      rfl
    | none =>
      simp only [searchQuotedName, hm] at h
      rw [ih h, Bool.or_true]

/-- C9: a name is extracted only when some word of some page contains
the name enclosed in single quotes as a contiguous substring of its
text — so a word carrying a bare well-formed name without the quotes
never yields an item. -/
theorem c9_quotes_required (summ : List Char → List Char) (pgs : List Page) (it : Item)
    (hmem : it ∈ runPipeline summ pgs) :
    ∃ p ∈ pgs, ∃ w ∈ p.words,
      containsSeq (squote :: (it.equipment ++ [squote])) w.text = true := by
  have hp : List.Perm ((runPipeline summ pgs).map Item.equipment)
      (keepFirst (matchedNames pgs)) :=
    List.Perm.trans
      (List.Perm.map Item.equipment (stableSortBy_perm lePYX (runPages summ 0 pgs [])))
      (runPages_names summ pgs 0 [])
  have hmm : it.equipment ∈ keepFirst (matchedNames pgs) :=
    hp.mem_iff.mp (List.mem_map_of_mem Item.equipment hmem)
  have hmn : it.equipment ∈ matchedNames pgs :=
    keepFirstAux_subset (matchedNames pgs) [] it.equipment hmm
  rw [matchedNames] at hmn
  obtain ⟨l, hl, hin⟩ := List.mem_flatten.mp hmn
  obtain ⟨p, hpmem, hpl⟩ := List.mem_map.mp hl
  subst hpl
  obtain ⟨w, hwmem, hwn⟩ := List.mem_filterMap.mp hin
  refine ⟨p, hpmem, w, hwmem, ?_⟩
  unfold wordName at hwn
  cases hsq : searchQuotedName w.text with
  | none => rw [hsq] at hwn; exact Option.noConfusion hwn
  | some nm =>
    rw [hsq] at hwn
    have hwn2 : (if nm.take 3 = "MVS".data ∨ nm.take 3 = "DSG".data then some nm
        else none) = some it.equipment := hwn
    split at hwn2
    · have hne : nm = it.equipment := Option.some.inj hwn2
      subst hne
      exact searchQuotedName_quoted w.text it.equipment hsq
    · exact Option.noConfusion hwn2

/-- A one-word page whose word text is the quoted name DSGAH110. -/
def onePage : Page := ⟨dsgWord.text, [dsgWord]⟩

/-- The record the pipeline produces from onePage. -/
def cItem : Item :=
  { equipment := "DSGAH110".data
    typ := "DSG".data
    properties := []
    x_position := 0
    y_position := 0
    page := 0
    color := "FFB3B3".data
    colorName := "Red".data
    alternateFrom := []
    primaryFrom := [] }

/-- C9 witness: a concrete run in which the item extracted from the
quoted word indeed has the quoted name inside the word text. -/
theorem c9_witness :
    ∃ p ∈ [onePage], ∃ w ∈ p.words,
      containsSeq (squote :: (cItem.equipment ++ [squote])) w.text = true :=
  c9_quotes_required (fun _ => []) [onePage] cItem (by decide)

/-- Source lines 233 and 247: the service items in global sorted
order by page, then y, then x. -/
def mvsSorted (data : List Item) : List Item :=
  stableSortBy lePYX (data.filter (fun x => x.typ == "MVS".data))

/-- Source lines 251-254: the service items selected for one page —
the page-matching ones, or, when the page has none and service items
exist, the first two of the global sorted list (the slice [:2] when
at least two exist, the whole list otherwise). -/
def mvsOnPage (data : List Item) (pg : Nat) : List Item :=
  let mvs := mvsSorted data
  let onPage := mvs.filter (fun x => x.page == pg)
  if onPage = [] ∧ mvs ≠ [] then
    (if 2 ≤ mvs.length then mvs.take 2 else mvs)
  else onPage

/-- Source lines 256-261: stamp one distribution item from the
selected service items: both fields when two or more are selected,
primary alone when exactly one is, nothing when none is. -/
def updateDsg (sel : List Item) (it : Item) : Item :=
  match sel with
  | s1 :: s2 :: _ => { it with primaryFrom := s1.equipment, alternateFrom := s2.equipment }
  | [s1] => { it with primaryFrom := s1.equipment }
  | [] => it

/-- Source lines 231-263: connection resolution.  The in-place
mutation of each distribution item inside its page group is rendered
as an update of that element of the list; each update depends only on
the item's own page field, so the dictionary grouping of lines
240-245 commutes with this per-item view, and items of other types
are left untouched. -/
def populate_connections (data : List Item) : List Item :=
  if data.filter (fun x => x.typ == "MVS".data) = [] then data
  else
    data.map (fun it =>
      if it.typ == "DSG".data then updateDsg (mvsOnPage data it.page) it else it)

/-- The selection rule in the words of the claim: the service items
of the page in global sorted order; when the page has none but
service items exist anywhere, the first one or two service items
globally; nothing otherwise. -/
def specSelected (data : List Item) (pg : Nat) : List Item :=
  let mvs := mvsSorted data
  let onPage := mvs.filter (fun x => x.page == pg)
  if onPage ≠ [] then onPage
  else if mvs ≠ [] then mvs.take 2
  else []

theorem mvsOnPage_eq_specSelected (data : List Item) (pg : Nat) :
    mvsOnPage data pg = specSelected data pg := by
  rw [mvsOnPage, specSelected]
  by_cases h1 : (mvsSorted data).filter (fun x => x.page == pg) = []
  · by_cases h2 : mvsSorted data = []
    · simp [h1, h2]
    · have htake : (if 2 ≤ (mvsSorted data).length then (mvsSorted data).take 2
          else mvsSorted data) = (mvsSorted data).take 2 := by
        split
        · rfl
        · rename_i hlen
          rw [List.take_of_length_le (by omega)]
      simp [h1, h2, htake]
  · simp [h1]

theorem mvsSorted_ne_nil_of_specSelected (data : List Item) (pg : Nat)
    (h : specSelected data pg ≠ []) :
    data.filter (fun x => x.typ == "MVS".data) ≠ [] := by
  intro hf
  apply h
  rw [specSelected]
  have hm : mvsSorted data = [] := by rw [mvsSorted, hf]; rfl
  simp [hm]

/-- C5: for every item list and every distribution item in it, the
resolver selects the service items of the item's page in global
sorted order (or, when the page has none but service items exist, the
first one or two globally); with two or more selected the item gets
primary from the first and alternate from the second, with exactly
one selected only primary is set. -/
theorem c5_connection_resolution (data : List Item) (i : Nat) (it : Item)
    (hi : nth data i = some it) (hty : it.typ = "DSG".data) :
    (∀ s1 s2 rest, specSelected data it.page = s1 :: s2 :: rest →
      nth (populate_connections data) i =
        some { it with primaryFrom := s1.equipment, alternateFrom := s2.equipment }) ∧
    (∀ s1, specSelected data it.page = [s1] →
      nth (populate_connections data) i = some { it with primaryFrom := s1.equipment }) := by
  have hmap : ∀ sel1, specSelected data it.page = sel1 → sel1 ≠ [] →
      nth (populate_connections data) i = some (updateDsg sel1 it) := by
    intro sel1 hsel hne
    have hmvs : data.filter (fun x => x.typ == "MVS".data) ≠ [] :=
      mvsSorted_ne_nil_of_specSelected data it.page (by rw [hsel]; exact hne)
    rw [populate_connections, if_neg hmvs, nth_map, hi]
    have hbeq : (it.typ == "DSG".data) = true := by rw [hty]; rfl
    show some (if (it.typ == "DSG".data) = true then updateDsg (mvsOnPage data it.page) it
      else it) = some (updateDsg sel1 it)
    rw [if_pos hbeq, mvsOnPage_eq_specSelected, hsel]
  constructor
  · intro s1 s2 rest hsel
    rw [hmap (s1 :: s2 :: rest) hsel (by simp)]
    rfl
  · intro s1 hsel
    rw [hmap [s1] hsel (by simp)]
    rfl

/-- Concrete service and distribution records for the C5 witness. -/
def svc1 : Item := ⟨"MVSAA100".data, "MVS".data, [], 0, 0, 0, [], [], [], []⟩

def svc2 : Item := ⟨"MVSAA101".data, "MVS".data, [], 10, 0, 0, [], [], [], []⟩

def dsgA : Item := ⟨"DSGAA102".data, "DSG".data, [], 0, 100, 0, [], [], [], []⟩

def dsgB : Item := ⟨"DSGAA103".data, "DSG".data, [], 10, 100, 0, [], [], [], []⟩

def dsgC : Item := ⟨"DSGAA104".data, "DSG".data, [], 20, 100, 0, [], [], [], []⟩

/-- C5 witness: two service items and three distribution items on the
same page; the distribution item at position 2 receives primary from
the first sorted service item and alternate from the second. -/
theorem c5_witness :
    nth (populate_connections [svc1, svc2, dsgA, dsgB, dsgC]) 2 =
      some { dsgA with primaryFrom := svc1.equipment, alternateFrom := svc2.equipment } :=
  (c5_connection_resolution [svc1, svc2, dsgA, dsgB, dsgC] 2 dsgA
      (by decide) (by decide)).1 svc1 svc2 [] (by decide)
